import Mathlib

/-!
# PandaCore `Tools/interface/Functions.h`

A shallow embedding of the numerical helper functions of
`Tools/interface/Functions.h` and a verification of their documented
properties.

The C++ functions work on `double`.  The arithmetic helpers are embedded over
an arbitrary linearly ordered field `K` (so that they can be evaluated over
`ℚ` and reasoned about over `ℝ`); rounding of individual `double` operations
is not modelled.  The functions that call transcendental library routines
(`cos`, `sin`, `sinh`, `sqrt`, `exp`, `erf`) are embedded over `ℝ`.
-/

namespace PandaCore

/-! ## Definitions -/

section Arithmetic

variable {K : Type} [LinearOrderedField K]

/-- The preprocessor constant of `Functions.h` line 7: `#define PI 3.141592654`. -/
def PI : K := 3.141592654

/-- `SignedDeltaPhi` of `Functions.h` lines 67-74. -/
def SignedDeltaPhi (phi1 phi2 : K) : K :=
  let dPhi := phi1 - phi2
  if dPhi < -PI then
    2 * PI + dPhi
  else if dPhi > PI then
    -2 * PI + dPhi
  else
    dPhi

/-- `TMath::Max` of the ROOT library for `Double_t`: `a >= b ? a : b`. -/
def TMath.Max (a b : K) : K := if a ≥ b then a else b

/-- `TMath::Min` of the ROOT library for `Double_t`: `a <= b ? a : b`. -/
def TMath.Min (a b : K) : K := if a ≤ b then a else b

/-- `TMath::Abs` of the ROOT library for `Double_t`: `d >= 0 ? d : -d`. -/
def TMath.Abs (d : K) : K := if d ≥ 0 then d else -d

/-- `bound` of `Functions.h` lines 31-33. -/
def bound (val low high : K) : K :=
  TMath.Max low (TMath.Min high val)

/-- `sign` of `Functions.h` lines 35-38, a template over the argument type `T`;
the result is a C++ `int`. -/
def sign {T : Type} [Zero T] [LinearOrder T] (x : T) : Int :=
  if x < 0 then -1 else 1

/-- `dsign` of `Functions.h` lines 42-44: the template instantiated at `double`. -/
def dsign (x : K) : Int :=
  sign x

/-- `DeltaR2` of `Functions.h` lines 79-83.  The two locals are declared
`float`, so every value stored in them, and every product or sum of two of
them, is narrowed to single precision; the narrowing is the parameter
`toFloat`.  Exact arithmetic is the instance `toFloat = id`. -/
def DeltaR2 (toFloat : K → K) (eta1 phi1 eta2 phi2 : K) : K :=
  let dEta2 := toFloat (eta1 - eta2)
  let dEta2 := toFloat (dEta2 * dEta2)
  let dPhi := toFloat (SignedDeltaPhi phi1 phi2)
  toFloat (dEta2 + toFloat (dPhi * dPhi))

end Arithmetic

section Doubles

/-- The values a `double` can hold, as far as `TMath::Finite` tells them apart:
a finite number, a NaN, or one of the two infinities. -/
inductive Dbl (K : Type) where
  | finite (v : K)
  | nan
  | posInf
  | negInf
  deriving DecidableEq, Repr

variable {K : Type}

/-- `TMath::Finite` of the ROOT library: true exactly when the argument is
neither a NaN nor an infinity. -/
def TMath.Finite : Dbl K → Bool
  | .finite _ => true
  | .nan => false
  | .posInf => false
  | .negInf => false

/-- `clean` of `Functions.h` lines 21-23, with its default argument `d = -1`. -/
def clean [Neg K] [One K] (x : Dbl K) (d : Dbl K := Dbl.finite (-1)) : Dbl K :=
  if TMath.Finite x then x else d

end Doubles

noncomputable section Transcendental

/-- The `TLorentzVector` of the ROOT library: momentum components and energy. -/
structure TLorentzVector where
  fX : ℝ
  fY : ℝ
  fZ : ℝ
  fE : ℝ

/-- `TLorentzVector::SetXYZM` of the ROOT library: for `m >= 0` the energy is
`sqrt(x*x+y*y+z*z+m*m)`, for `m < 0` it is
`sqrt(max(x*x+y*y+z*z-m*m, 0))`. -/
def TLorentzVector.SetXYZM (x y z m : ℝ) : TLorentzVector :=
  if m ≥ 0 then
    ⟨x, y, z, Real.sqrt (x * x + y * y + z * z + m * m)⟩
  else
    ⟨x, y, z, Real.sqrt (TMath.Max (x * x + y * y + z * z - m * m) 0)⟩

/-- `TLorentzVector::SetPtEtaPhiM` of the ROOT library:
`pt = TMath::Abs(pt); SetXYZM(pt*cos(phi), pt*sin(phi), pt*sinh(eta), m)`. -/
def TLorentzVector.SetPtEtaPhiM (pt eta phi m : ℝ) : TLorentzVector :=
  let pt := TMath.Abs pt
  TLorentzVector.SetXYZM (pt * Real.cos phi) (pt * Real.sin phi) (pt * Real.sinh eta) m

/-- `TLorentzVector::operator+` of the ROOT library: componentwise sum. -/
def TLorentzVector.add (a b : TLorentzVector) : TLorentzVector :=
  ⟨a.fX + b.fX, a.fY + b.fY, a.fZ + b.fZ, a.fE + b.fE⟩

/-- `TLorentzVector::Mag2` of the ROOT library: `T()*T() - fP.Mag2()`. -/
def TLorentzVector.Mag2 (v : TLorentzVector) : ℝ :=
  v.fE * v.fE - (v.fX * v.fX + v.fY * v.fY + v.fZ * v.fZ)

/-- `TLorentzVector::M` of the ROOT library:
`mm = Mag2(); mm < 0.0 ? -sqrt(-mm) : sqrt(mm)`. -/
def TLorentzVector.M (v : TLorentzVector) : ℝ :=
  let mm := v.Mag2
  if mm < 0 then -Real.sqrt (-mm) else Real.sqrt mm

/-- `Mxx` of `Functions.h` lines 49-54. -/
def Mxx (pt1 eta1 phi1 m1 pt2 eta2 phi2 m2 : ℝ) : ℝ :=
  let v1 := TLorentzVector.SetPtEtaPhiM pt1 eta1 phi1 m1
  let v2 := TLorentzVector.SetPtEtaPhiM pt2 eta2 phi2 m2
  (v1.add v2).M

/-- `MT` of `Functions.h` lines 56-62. -/
def MT (pt1 phi1 pt2 phi2 : ℝ) : ℝ :=
  let v1 := TLorentzVector.SetPtEtaPhiM pt1 0 phi1 0
  let v2 := TLorentzVector.SetPtEtaPhiM pt2 0 phi2 0
  (v1.add v2).M

/-- `TMath::Erf` of the ROOT library, the error function
`erf(x) = 2/sqrt(π) · ∫₀ˣ exp(-t²) dt`. -/
def TMath.Erf (x : ℝ) : ℝ :=
  2 / Real.sqrt Real.pi * ∫ t in (0 : ℝ)..x, Real.exp (-(t ^ 2))

/-- `ExpErf` of `Functions.h` lines 88-92. -/
def ExpErf (x a b c : ℝ) : ℝ :=
  let exp_ := Real.exp (c * x)
  let erf_ := TMath.Erf ((x - a) / b)
  exp_ * (1 + erf_) / 2

end Transcendental

/-! ## Auxiliary facts -/

/-- The code's constant is strictly larger than the mathematical `π`. -/
lemma pi_lt_PI : Real.pi < (PI : ℝ) := by
  have h := Real.pi_lt_d20
  unfold PI
  norm_num at h ⊢
  linarith

/-- The code's constant exceeds `π` by less than `5e-10`. -/
lemma PI_sub_pi_lt : (PI : ℝ) - Real.pi < 0.0000000005 := by
  have h := Real.pi_gt_d20
  unfold PI
  norm_num at h ⊢
  linarith

/-- Whatever the inputs, one of the three branches of `SignedDeltaPhi` is taken. -/
lemma SignedDeltaPhi_cases {K : Type} [LinearOrderedField K] (phi1 phi2 : K) :
    (phi1 - phi2 < -PI ∧ SignedDeltaPhi phi1 phi2 = 2 * PI + (phi1 - phi2)) ∨
    (¬ phi1 - phi2 < -PI ∧ phi1 - phi2 > PI ∧
        SignedDeltaPhi phi1 phi2 = -2 * PI + (phi1 - phi2)) ∨
    (¬ phi1 - phi2 < -PI ∧ ¬ phi1 - phi2 > PI ∧
        SignedDeltaPhi phi1 phi2 = phi1 - phi2) := by
  unfold SignedDeltaPhi
  by_cases h1 : phi1 - phi2 < -PI
  · left; exact ⟨h1, by simp [h1]⟩
  · by_cases h2 : phi1 - phi2 > PI
    · right; left; exact ⟨h1, h2, by simp [h1, h2]⟩
    · right; right; exact ⟨h1, h2, by simp [h1, h2]⟩

/-- The code's constant is positive. -/
lemma PI_pos {K : Type} [LinearOrderedField K] : (0 : K) < PI := by
  unfold PI
  norm_num

/-- Swapping the arguments of `SignedDeltaPhi` negates the result. -/
lemma SignedDeltaPhi_antisymm {K : Type} [LinearOrderedField K] (phi1 phi2 : K) :
    SignedDeltaPhi phi2 phi1 = -SignedDeltaPhi phi1 phi2 := by
  have hP : (0 : K) < PI := PI_pos
  have hd : phi2 - phi1 = -(phi1 - phi2) := by ring
  rcases SignedDeltaPhi_cases phi1 phi2 with ⟨h, e⟩ | ⟨h', h, e⟩ | ⟨h, h', e⟩
  · have a1 : ¬ phi2 - phi1 < -PI := by rw [hd]; intro c; linarith
    have a2 : phi2 - phi1 > PI := by rw [hd]; linarith
    rw [e]; simp only [SignedDeltaPhi, a1, a2, if_true, if_false]; ring
  · have a1 : phi2 - phi1 < -PI := by rw [hd]; linarith
    rw [e]; simp only [SignedDeltaPhi, a1, if_true]; ring
  · have a1 : ¬ phi2 - phi1 < -PI := by rw [hd]; intro c; apply h'; linarith
    have a2 : ¬ phi2 - phi1 > PI := by rw [hd]; intro c; apply h; linarith
    rw [e]; simp only [SignedDeltaPhi, a1, a2, if_false]; ring

/-- `DeltaR2` is symmetric for every narrowing that commutes with negation
(round-to-nearest does; so does the identity). -/
lemma DeltaR2_symm_of_odd {K : Type} [LinearOrderedField K] (toFloat : K → K)
    (hodd : ∀ x, toFloat (-x) = -toFloat x) (eta1 phi1 eta2 phi2 : K) :
    DeltaR2 toFloat eta1 phi1 eta2 phi2 = DeltaR2 toFloat eta2 phi2 eta1 phi1 := by
  have he : eta2 - eta1 = -(eta1 - eta2) := by ring
  unfold DeltaR2
  simp only [SignedDeltaPhi_antisymm phi1 phi2, he, hodd, neg_mul_neg]

/-- `TMath::Abs` is the absolute value. -/
lemma TMath.Abs_eq_abs {K : Type} [LinearOrderedField K] (d : K) : TMath.Abs d = |d| := by
  unfold TMath.Abs
  split_ifs with h
  · exact (abs_of_nonneg h).symm
  · exact (abs_of_neg (not_le.mp h)).symm

/-- `TMath::Max` is the lattice maximum. -/
lemma TMath.Max_eq_max {K : Type} [LinearOrderedField K] (a b : K) : TMath.Max a b = max a b := by
  unfold TMath.Max
  split_ifs with h
  · exact (max_eq_left h).symm
  · exact (max_eq_right (not_le.mp h).le).symm

/-- `TMath::Min` is the lattice minimum. -/
lemma TMath.Min_eq_min {K : Type} [LinearOrderedField K] (a b : K) : TMath.Min a b = min a b := by
  unfold TMath.Min
  split_ifs with h
  · exact (min_eq_left h).symm
  · exact (min_eq_right (not_le.mp h).le).symm

/-- The four-vector built from all-zero kinematics is the zero vector. -/
lemma SetPtEtaPhiM_zero :
    TLorentzVector.SetPtEtaPhiM 0 0 0 0 = ⟨0, 0, 0, 0⟩ := by
  simp [TLorentzVector.SetPtEtaPhiM, TLorentzVector.SetXYZM, TMath.Abs]

/-- Adding the zero vector changes nothing. -/
lemma TLorentzVector.add_zero_vec (v : TLorentzVector) : v.add ⟨0, 0, 0, 0⟩ = v := by
  cases v
  simp [TLorentzVector.add]

/-- Squared momentum of the vector built by `SetPtEtaPhiM`. -/
lemma momentum_sq (pt eta phi : ℝ) :
    (pt * Real.cos phi) * (pt * Real.cos phi) + (pt * Real.sin phi) * (pt * Real.sin phi)
      + (pt * Real.sinh eta) * (pt * Real.sinh eta) = (pt * Real.cosh eta) ^ 2 := by
  have h1 := Real.cos_sq_add_sin_sq phi
  have h2 := Real.cosh_sq eta
  have : (pt * Real.cos phi) * (pt * Real.cos phi) + (pt * Real.sin phi) * (pt * Real.sin phi)
      + (pt * Real.sinh eta) * (pt * Real.sinh eta)
      = pt ^ 2 * (Real.cos phi ^ 2 + Real.sin phi ^ 2) + pt ^ 2 * Real.sinh eta ^ 2 := by ring
  rw [this, h1, mul_pow, h2]; ring

/-- Mass of a vector set with a non-negative mass. -/
lemma M_SetXYZM_of_nonneg (x y z m : ℝ) (hm : 0 ≤ m) :
    (TLorentzVector.SetXYZM x y z m).M = m := by
  have hs : 0 ≤ x * x + y * y + z * z + m * m := by
    nlinarith [mul_self_nonneg x, mul_self_nonneg y, mul_self_nonneg z, mul_self_nonneg m]
  have hmag : (TLorentzVector.SetXYZM x y z m).Mag2 = m * m := by
    simp only [TLorentzVector.SetXYZM, ge_iff_le, hm, if_true, TLorentzVector.Mag2]
    rw [Real.mul_self_sqrt hs]; ring
  unfold TLorentzVector.M
  simp only [hmag]
  rw [if_neg (not_lt.mpr (mul_self_nonneg m)), Real.sqrt_mul_self hm]

/-- Mass of a vector set with a negative mass not exceeding the momentum. -/
lemma M_SetXYZM_of_neg_le (x y z m : ℝ) (hm : m < 0)
    (h : m * m ≤ x * x + y * y + z * z) :
    (TLorentzVector.SetXYZM x y z m).M = m := by
  have hs : 0 ≤ x * x + y * y + z * z - m * m := by linarith
  have hmag : (TLorentzVector.SetXYZM x y z m).Mag2 = -(m * m) := by
    simp only [TLorentzVector.SetXYZM, ge_iff_le, not_le.mpr hm, if_false, TLorentzVector.Mag2]
    rw [TMath.Max_eq_max, max_eq_left hs, Real.mul_self_sqrt hs]; ring
  have hneg : -(m * m) < 0 := by nlinarith
  unfold TLorentzVector.M
  simp only [hmag]
  rw [if_pos hneg, neg_neg]
  have : m * m = (-m) * (-m) := by ring
  rw [this, Real.sqrt_mul_self (by linarith)]; ring

/-- Mass of a vector set with a negative mass exceeding the momentum: the
energy is clipped to zero and the mass is minus the momentum. -/
lemma M_SetXYZM_of_neg_gt (x y z m : ℝ) (hm : m < 0)
    (h : x * x + y * y + z * z < m * m) :
    (TLorentzVector.SetXYZM x y z m).M = -Real.sqrt (x * x + y * y + z * z) := by
  have hs : x * x + y * y + z * z - m * m ≤ 0 := by linarith
  have hp : 0 ≤ x * x + y * y + z * z := by
    nlinarith [mul_self_nonneg x, mul_self_nonneg y, mul_self_nonneg z]
  have hmag : (TLorentzVector.SetXYZM x y z m).Mag2 = -(x * x + y * y + z * z) := by
    simp only [TLorentzVector.SetXYZM, ge_iff_le, not_le.mpr hm, if_false, TLorentzVector.Mag2]
    rw [TMath.Max_eq_max, max_eq_right hs]; simp
  unfold TLorentzVector.M
  simp only [hmag]
  rcases hp.eq_or_lt with h0 | h0
  · rw [← h0]; simp
  · rw [if_pos (by linarith), neg_neg]

/-- The Gaussian integral over a bounded interval from the origin is
non-negative and at most the half-line integral `sqrt(π)/2`. -/
lemma gauss_integral_bounds (y : ℝ) (hy : 0 ≤ y) :
    0 ≤ (∫ t in (0 : ℝ)..y, Real.exp (-(t ^ 2))) ∧
      (∫ t in (0 : ℝ)..y, Real.exp (-(t ^ 2))) ≤ Real.sqrt Real.pi / 2 := by
  have hint : MeasureTheory.Integrable (fun t : ℝ => Real.exp (-(t ^ 2))) := by
    have := integrable_exp_neg_mul_sq (show (0 : ℝ) < 1 by norm_num)
    simpa using this
  have hhalf : (∫ t in Set.Ioi (0 : ℝ), Real.exp (-(t ^ 2))) = Real.sqrt Real.pi / 2 := by
    have := integral_gaussian_Ioi 1
    simpa using this
  constructor
  · exact intervalIntegral.integral_nonneg hy (fun t _ => (Real.exp_pos _).le)
  · rw [intervalIntegral.integral_of_le hy, ← hhalf]
    apply MeasureTheory.setIntegral_mono_set hint.integrableOn
    · exact Filter.Eventually.of_forall (fun t => (Real.exp_pos _).le)
    · exact Filter.Eventually.of_forall (fun t ht => ht.1)

/-- The error function is odd. -/
lemma TMath.Erf_neg (y : ℝ) : TMath.Erf (-y) = -TMath.Erf y := by
  unfold TMath.Erf
  have h := intervalIntegral.integral_comp_neg (a := 0) (b := y) (fun t : ℝ => Real.exp (-(t ^ 2)))
  simp only [neg_sq, neg_zero] at h
  rw [intervalIntegral.integral_symm (-y) 0, ← h]
  ring

/-- The error function vanishes at the origin. -/
lemma TMath.Erf_zero : TMath.Erf 0 = 0 := by
  simp [TMath.Erf]

/-- The error function takes values in `[-1, 1]`. -/
lemma TMath.Erf_bounds (y : ℝ) : -1 ≤ TMath.Erf y ∧ TMath.Erf y ≤ 1 := by
  have hpos : 0 < Real.sqrt Real.pi := Real.sqrt_pos.mpr Real.pi_pos
  have key : ∀ z : ℝ, 0 ≤ z → 0 ≤ TMath.Erf z ∧ TMath.Erf z ≤ 1 := by
    intro z hz
    obtain ⟨h0, h1⟩ := gauss_integral_bounds z hz
    unfold TMath.Erf
    constructor
    · positivity
    · calc 2 / Real.sqrt Real.pi * ∫ t in (0 : ℝ)..z, Real.exp (-(t ^ 2))
          ≤ 2 / Real.sqrt Real.pi * (Real.sqrt Real.pi / 2) := by gcongr
        _ = 1 := by field_simp
  rcases le_total 0 y with hy | hy
  · obtain ⟨h0, h1⟩ := key y hy
    exact ⟨by linarith, h1⟩
  · obtain ⟨h0, h1⟩ := key (-y) (by linarith)
    rw [TMath.Erf_neg] at h0 h1
    exact ⟨by linarith, by linarith⟩

/-- `SignedDeltaPhi` of two equal angles takes the unwrapped branch and is zero. -/
lemma SignedDeltaPhi_same {K : Type} [LinearOrderedField K] (phi : K) :
    SignedDeltaPhi phi phi = 0 := by
  have hP : (0 : K) < PI := PI_pos
  have h1 : ¬ ((0 : K) < -PI) := by intro c; linarith
  have h2 : ¬ ((0 : K) > PI) := by intro c; linarith
  simp only [SignedDeltaPhi, sub_self, h1, h2, if_false]

/-- `DeltaR2` of two equal points is zero for every narrowing that keeps zero. -/
lemma DeltaR2_same_of_zero {K : Type} [LinearOrderedField K] (toFloat : K → K)
    (h0 : toFloat 0 = 0) (eta phi : K) :
    DeltaR2 toFloat eta phi eta phi = 0 := by
  simp only [DeltaR2, SignedDeltaPhi_same, sub_self, h0, mul_zero, add_zero]

/-- The massless transverse four-vector built by `MT` for one particle. -/
lemma SetPtEtaPhiM_transverse (pt phi : ℝ) :
    TLorentzVector.SetPtEtaPhiM pt 0 phi 0 = ⟨|pt| * Real.cos phi, |pt| * Real.sin phi, 0, |pt|⟩ := by
  have hsq := momentum_sq (|pt|) 0 phi
  rw [Real.cosh_zero, mul_one] at hsq
  have hE : Real.sqrt ((|pt| * Real.cos phi) * (|pt| * Real.cos phi)
      + (|pt| * Real.sin phi) * (|pt| * Real.sin phi)
      + (|pt| * Real.sinh 0) * (|pt| * Real.sinh 0) + 0 * 0) = |pt| := by
    rw [mul_zero, add_zero, hsq, Real.sqrt_sq (abs_nonneg pt)]
  unfold TLorentzVector.SetPtEtaPhiM TLorentzVector.SetXYZM
  simp only [TMath.Abs_eq_abs, ge_iff_le, le_refl, if_true, hE]
  simp

/-- Squared magnitude of the summed four-vector inside `MT`. -/
lemma MT_Mag2 (pt1 phi1 pt2 phi2 : ℝ) :
    ((TLorentzVector.SetPtEtaPhiM pt1 0 phi1 0).add
        (TLorentzVector.SetPtEtaPhiM pt2 0 phi2 0)).Mag2
      = 2 * |pt1| * |pt2| * (1 - Real.cos (phi1 - phi2)) := by
  have h1 := Real.cos_sq_add_sin_sq phi1
  have h2 := Real.cos_sq_add_sin_sq phi2
  rw [SetPtEtaPhiM_transverse, SetPtEtaPhiM_transverse, Real.cos_sub]
  simp only [TLorentzVector.add, TLorentzVector.Mag2]
  have e1 : Real.sin phi1 ^ 2 = 1 - Real.cos phi1 ^ 2 := by linarith
  have e2 : Real.sin phi2 ^ 2 = 1 - Real.cos phi2 ^ 2 := by linarith
  ring_nf
  rw [e1, e2]
  ring

/-- The squared magnitude inside `MT` is never negative. -/
lemma MT_Mag2_nonneg (pt1 phi1 pt2 phi2 : ℝ) :
    0 ≤ 2 * |pt1| * |pt2| * (1 - Real.cos (phi1 - phi2)) := by
  have hc := Real.cos_le_one (phi1 - phi2)
  have ha := abs_nonneg pt1
  have hb := abs_nonneg pt2
  have : 0 ≤ 2 * |pt1| * |pt2| := by positivity
  exact mul_nonneg this (by linarith)

/-- `MT` is the square root of the closed-form squared magnitude. -/
lemma MT_eq_sqrt (pt1 phi1 pt2 phi2 : ℝ) :
    MT pt1 phi1 pt2 phi2 = Real.sqrt (2 * |pt1| * |pt2| * (1 - Real.cos (phi1 - phi2))) := by
  unfold MT TLorentzVector.M
  simp only [MT_Mag2]
  rw [if_neg (not_lt.mpr (MT_Mag2_nonneg pt1 phi1 pt2 phi2))]

/-! ## Claims -/

/-- C1 (as stated, refuted): the half-open interval `(-π, π]` is not respected.
At `phi1 = 0`, `phi2 = π` (both in `(-π, π]`) the raw difference is `-π`, which
is not below `-PI`, so it is returned unchanged and the excluded lower end is
hit.  At `phi1 = 3.1415926535`, `phi2 = -0.0000000004` the raw difference
`3.1415926539` lies strictly between `π` and `PI`, so it is returned unchanged
and exceeds `π`. -/
theorem SignedDeltaPhi_range_counterexample :
    ((-Real.pi < (0 : ℝ) ∧ (0 : ℝ) ≤ Real.pi) ∧ (-Real.pi < Real.pi ∧ Real.pi ≤ Real.pi) ∧
        ¬ (-Real.pi < SignedDeltaPhi (0 : ℝ) Real.pi)) ∧
    ((-Real.pi < (3.1415926535 : ℝ) ∧ (3.1415926535 : ℝ) ≤ Real.pi) ∧
        (-Real.pi < (-0.0000000004 : ℝ) ∧ (-0.0000000004 : ℝ) ≤ Real.pi) ∧
        ¬ (SignedDeltaPhi (3.1415926535 : ℝ) (-0.0000000004) ≤ Real.pi)) := by
  have hpos := Real.pi_pos
  have hlt := pi_lt_PI
  have hgt := Real.pi_gt_d20
  have hlt20 := Real.pi_lt_d20
  have hPI : (PI : ℝ) = 3.141592654 := rfl
  refine ⟨⟨⟨by linarith, hpos.le⟩, ⟨by linarith, le_refl _⟩, ?_⟩,
    ⟨⟨by norm_num; linarith, by norm_num at hgt ⊢; linarith⟩,
      ⟨by norm_num; linarith, by norm_num; linarith⟩, ?_⟩⟩
  · have h1 : ¬ ((0 : ℝ) - Real.pi < -PI) := by
      intro h; linarith
    have h2 : ¬ ((0 : ℝ) - Real.pi > PI) := by
      intro h; linarith
    simp only [SignedDeltaPhi, h1, h2, if_false]
    intro h; linarith
  · have h1 : ¬ ((3.1415926535 : ℝ) - (-0.0000000004) < -PI) := by
      rw [hPI]; norm_num
    have h2 : ¬ ((3.1415926535 : ℝ) - (-0.0000000004) > PI) := by
      rw [hPI]; norm_num
    simp only [SignedDeltaPhi, h1, h2, if_false]
    intro h
    norm_num at h hlt20
    linarith

/-- C1 (amended): for inputs that each lie in `(-π, π]`, the result of
`SignedDeltaPhi` lies in the closed interval `[-PI, PI]`, where
`PI = 3.141592654` is the code's constant. -/
theorem SignedDeltaPhi_range (phi1 phi2 : ℝ)
    (h1l : -Real.pi < phi1) (h1u : phi1 ≤ Real.pi)
    (h2l : -Real.pi < phi2) (h2u : phi2 ≤ Real.pi) :
    -PI ≤ SignedDeltaPhi phi1 phi2 ∧ SignedDeltaPhi phi1 phi2 ≤ PI := by
  have hlt := pi_lt_PI
  rcases SignedDeltaPhi_cases phi1 phi2 with ⟨h, e⟩ | ⟨_, h, e⟩ | ⟨h, h', e⟩
  · rw [e]; constructor <;> linarith
  · rw [e]; constructor <;> linarith
  · rw [e]; constructor <;> linarith

/-- C1 (amended), instance at `phi1 = 3`, `phi2 = -3`. -/
theorem SignedDeltaPhi_range_witness :
    (-Real.pi < (3 : ℝ) ∧ (3 : ℝ) ≤ Real.pi ∧ -Real.pi < (-3 : ℝ) ∧ (-3 : ℝ) ≤ Real.pi) ∧
    (-PI ≤ SignedDeltaPhi (3 : ℝ) (-3) ∧ SignedDeltaPhi (3 : ℝ) (-3) ≤ PI) :=
  have h3 := Real.pi_gt_three
  have hp := Real.pi_pos
  ⟨⟨by linarith, h3.le, by linarith, by linarith⟩,
    SignedDeltaPhi_range 3 (-3) (by linarith) h3.le (by linarith) (by linarith)⟩

/-- C2 (as stated, refuted): with a negative mass whose magnitude exceeds the
momentum the four-vector's energy is clipped to zero, and the pair mass is
minus the momentum, not `m`: `Mxx(1, 0, 0, -2, 0, 0, 0, 0) = -1`. -/
theorem Mxx_single_counterexample :
    (0 : ℝ) < 1 ∧ Mxx 1 0 0 (-2) 0 0 0 0 = -1 ∧ Mxx 1 0 0 (-2) 0 0 0 0 ≠ -2 := by
  have h : Mxx 1 0 0 (-2) 0 0 0 0 = -1 := by
    unfold Mxx
    simp only [SetPtEtaPhiM_zero, TLorentzVector.add_zero_vec]
    unfold TLorentzVector.SetPtEtaPhiM
    simp only []
    rw [M_SetXYZM_of_neg_gt _ _ _ _ (by norm_num)
        (by rw [momentum_sq]; simp [TMath.Abs]; norm_num),
      momentum_sq]
    simp [TMath.Abs]
  refine ⟨by norm_num, h, ?_⟩
  rw [h]; norm_num

/-- C2 (amended): for every `pt > 0`, every `eta` and `phi`, and every mass
`m` that is non-negative or satisfies `m² ≤ (pt·cosh eta)²` (its magnitude
does not exceed the momentum), `Mxx(pt, eta, phi, m, 0, 0, 0, 0) = m` in exact
real arithmetic. -/
theorem Mxx_single (pt eta phi m : ℝ) (hpt : 0 < pt)
    (hm : 0 ≤ m ∨ m ^ 2 ≤ (pt * Real.cosh eta) ^ 2) :
    Mxx pt eta phi m 0 0 0 0 = m := by
  unfold Mxx
  simp only [SetPtEtaPhiM_zero, TLorentzVector.add_zero_vec]
  unfold TLorentzVector.SetPtEtaPhiM
  simp only []
  by_cases h0 : 0 ≤ m
  · exact M_SetXYZM_of_nonneg _ _ _ _ h0
  · have hm' : m ^ 2 ≤ (pt * Real.cosh eta) ^ 2 := by
      rcases hm with h | h
      · exact absurd h h0
      · exact h
    apply M_SetXYZM_of_neg_le _ _ _ _ (not_le.mp h0)
    rw [momentum_sq, TMath.Abs_eq_abs, abs_of_pos hpt]
    nlinarith

/-- C2 (amended), instances at `(pt, eta, phi, m) = (3, 1, 2, 5)` and, on the
negative-mass branch, `(3, 0, 0, -2)`. -/
theorem Mxx_single_witness :
    (((0 : ℝ) < 3 ∧ ((0 : ℝ) ≤ 5 ∨ (5 : ℝ) ^ 2 ≤ (3 * Real.cosh 1) ^ 2)) ∧
      Mxx 3 1 2 5 0 0 0 0 = 5) ∧
    (((0 : ℝ) < 3 ∧ ((0 : ℝ) ≤ -2 ∨ (-2 : ℝ) ^ 2 ≤ (3 * Real.cosh 0) ^ 2)) ∧
      Mxx 3 0 0 (-2) 0 0 0 0 = -2) :=
  ⟨⟨⟨by norm_num, Or.inl (by norm_num)⟩,
      Mxx_single 3 1 2 5 (by norm_num) (Or.inl (by norm_num))⟩,
    ⟨⟨by norm_num, Or.inr (by rw [Real.cosh_zero]; norm_num)⟩,
      Mxx_single 3 0 0 (-2) (by norm_num) (Or.inr (by rw [Real.cosh_zero]; norm_num))⟩⟩

/-- C3 (as stated, refuted): with `c < 0` and `x < 0` the exponential factor
exceeds one; `ExpErf(-1, -1, 1, -1) = e/2 > 1`. -/
theorem ExpErf_unit_interval_counterexample :
    ((0 : ℝ) < 1 ∧ (-1 : ℝ) ≤ 0) ∧ ExpErf (-1) (-1) 1 (-1) = Real.exp 1 / 2 ∧
      ¬ (ExpErf (-1) (-1) 1 (-1) ≤ 1) := by
  have h : ExpErf (-1) (-1) 1 (-1) = Real.exp 1 / 2 := by
    simp [ExpErf, TMath.Erf_zero]
  refine ⟨⟨by norm_num, by norm_num⟩, h, ?_⟩
  have he := Real.exp_one_gt_d9
  rw [h]
  intro hle
  norm_num at he
  linarith

/-- C3 (amended): for every real `x` and `a`, every `b > 0` and every `c ≤ 0`,
`ExpErf(x, a, b, c) ≥ 0`, and `ExpErf(x, a, b, c) ≤ 1` whenever `x ≥ 0`. -/
theorem ExpErf_unit_interval (x a b c : ℝ) (hb : 0 < b) (hc : c ≤ 0) :
    0 ≤ ExpErf x a b c ∧ (0 ≤ x → ExpErf x a b c ≤ 1) := by
  have _ := hb
  obtain ⟨hl, hu⟩ := TMath.Erf_bounds ((x - a) / b)
  have he : 0 < Real.exp (c * x) := Real.exp_pos _
  unfold ExpErf
  constructor
  · have : 0 ≤ Real.exp (c * x) * (1 + TMath.Erf ((x - a) / b)) :=
      mul_nonneg he.le (by linarith)
    simp only []
    linarith
  · intro hx
    have he1 : Real.exp (c * x) ≤ 1 := by
      rw [Real.exp_le_one_iff]
      exact mul_nonpos_of_nonpos_of_nonneg hc hx
    simp only []
    nlinarith

/-- C3 (amended), instance at `(x, a, b, c) = (2, 0, 1, -1)`. -/
theorem ExpErf_unit_interval_witness :
    ((0 : ℝ) < 1 ∧ (-1 : ℝ) ≤ 0 ∧ (0 : ℝ) ≤ 2) ∧
      (0 ≤ ExpErf 2 0 1 (-1) ∧ ExpErf 2 0 1 (-1) ≤ 1) :=
  ⟨⟨by norm_num, by norm_num, by norm_num⟩,
    (ExpErf_unit_interval 2 0 1 (-1) (by norm_num) (by norm_num)).1,
    (ExpErf_unit_interval 2 0 1 (-1) (by norm_num) (by norm_num)).2 (by norm_num)⟩

/-- C4: for every `val` and every `lo ≤ hi`, `lo ≤ bound(val, lo, hi) ≤ hi`. -/
theorem bound_mem_range {K : Type} [LinearOrderedField K] (val lo hi : K) (h : lo ≤ hi) :
    lo ≤ bound val lo hi ∧ bound val lo hi ≤ hi := by
  unfold bound
  rw [TMath.Max_eq_max, TMath.Min_eq_min]
  exact ⟨le_max_left _ _, max_le h (min_le_left _ _)⟩

/-- C4, instance at `val = 7`, `lo = 0`, `hi = 3` over the rationals. -/
theorem bound_mem_range_witness :
    (0 : ℚ) ≤ 3 ∧ ((0 : ℚ) ≤ bound 7 0 3 ∧ bound (7 : ℚ) 0 3 ≤ 3) :=
  ⟨by norm_num, bound_mem_range 7 0 3 (by norm_num)⟩

/-- C5: for `lo ≤ hi`, `bound(val, lo, hi)` is `lo` when `val ≤ lo`, `hi` when
`val ≥ hi`, and `val` when `lo ≤ val ≤ hi`. -/
theorem bound_eq_clamp {K : Type} [LinearOrderedField K] (val lo hi : K) (h : lo ≤ hi) :
    (val ≤ lo → bound val lo hi = lo) ∧
    (val ≥ hi → bound val lo hi = hi) ∧
    (lo ≤ val → val ≤ hi → bound val lo hi = val) := by
  unfold bound
  rw [TMath.Max_eq_max, TMath.Min_eq_min]
  refine ⟨fun hv => ?_, fun hv => ?_, fun hl hu => ?_⟩
  · exact max_eq_left ((min_le_right _ _).trans hv)
  · rw [min_eq_left hv]; exact max_eq_right h
  · rw [min_eq_right hu]; exact max_eq_right hl

/-- C5, instances below, above and inside the range `[0, 3]` over the
rationals. -/
theorem bound_eq_clamp_witness :
    ((0 : ℚ) ≤ 3 ∧ (-1 : ℚ) ≤ 0 ∧ (7 : ℚ) ≥ 3 ∧ (0 : ℚ) ≤ 2 ∧ (2 : ℚ) ≤ 3) ∧
    bound (-1 : ℚ) 0 3 = 0 ∧ bound (7 : ℚ) 0 3 = 3 ∧ bound (2 : ℚ) 0 3 = 2 :=
  ⟨⟨by norm_num, by norm_num, by norm_num, by norm_num, by norm_num⟩,
    (bound_eq_clamp (-1) 0 3 (by norm_num)).1 (by norm_num),
    (bound_eq_clamp 7 0 3 (by norm_num)).2.1 (by norm_num),
    (bound_eq_clamp 2 0 3 (by norm_num)).2.2 (by norm_num) (by norm_num)⟩

/-- C6: for every default `d`, `clean(x, d)` returns `x` when `x` is finite and
`d` when `x` is NaN, `+Infinity` or `-Infinity`. -/
theorem clean_spec {K : Type} [Neg K] [One K] (d : Dbl K) :
    (∀ v : K, clean (Dbl.finite v) d = Dbl.finite v) ∧
    clean Dbl.nan d = d ∧ clean Dbl.posInf d = d ∧ clean Dbl.negInf d = d :=
  ⟨fun _ => rfl, rfl, rfl, rfl⟩

/-- C7: `sign(x)` is `-1` for `x < 0` and `+1` otherwise, so it is always one
of `-1`, `1`; `sign(0) = 1`, `sign(-5) = -1`, `sign(3.2) = 1`. -/
theorem sign_spec {T : Type} [LinearOrderedField T] (x : T) :
    (x < 0 → sign x = -1) ∧ (¬ x < 0 → sign x = 1) ∧
    (sign x = -1 ∨ sign x = 1) ∧
    sign (0 : T) = 1 ∧ sign (0 : ℤ) = 1 ∧
    sign (-5 : T) = -1 ∧ sign (-5 : ℤ) = -1 ∧ sign (3.2 : T) = 1 := by
  refine ⟨fun h => by simp [sign, h], fun h => by simp [sign, h], ?_, ?_, ?_, ?_, ?_, ?_⟩
  · by_cases h : x < 0
    · left; simp [sign, h]
    · right; simp [sign, h]
  · simp [sign]
  · simp [sign]
  · simp [sign]
  · simp [sign]
  · have h : ¬ ((3.2 : T) < 0) := by norm_num
    simp [sign, h]

/-- C7, instances at `x = -7/2` and `x = 9/4` over the rationals. -/
theorem sign_spec_witness :
    ((-7 / 2 : ℚ) < 0 ∧ ¬ (9 / 4 : ℚ) < 0) ∧
      sign (-7 / 2 : ℚ) = -1 ∧ sign (9 / 4 : ℚ) = 1 :=
  ⟨⟨by norm_num, by norm_num⟩,
    (sign_spec (-7 / 2 : ℚ)).1 (by norm_num),
    (sign_spec (9 / 4 : ℚ)).2.1 (by norm_num)⟩

/-- C8: `Mxx` is symmetric under exchange of the two particles. -/
theorem Mxx_symm (pt1 eta1 phi1 m1 pt2 eta2 phi2 m2 : ℝ) :
    Mxx pt1 eta1 phi1 m1 pt2 eta2 phi2 m2 = Mxx pt2 eta2 phi2 m2 pt1 eta1 phi1 m1 := by
  unfold Mxx
  simp only [TLorentzVector.add, add_comm]

/-- C9: in exact arithmetic (no narrowing to `float`) `DeltaR2` is
`(eta1-eta2)² + SignedDeltaPhi(phi1,phi2)²` and is symmetric under swapping the
two `(eta, phi)` pairs. -/
theorem DeltaR2_symm {K : Type} [LinearOrderedField K] (eta1 phi1 eta2 phi2 : K) :
    DeltaR2 id eta1 phi1 eta2 phi2 = (eta1 - eta2) ^ 2 + SignedDeltaPhi phi1 phi2 ^ 2 ∧
    DeltaR2 id eta1 phi1 eta2 phi2 = DeltaR2 id eta2 phi2 eta1 phi1 := by
  constructor
  · simp only [DeltaR2, id]; ring
  · exact DeltaR2_symm_of_odd id (fun _ => rfl) eta1 phi1 eta2 phi2

/-- C10 (as stated, refuted): the code wraps with its constant
`PI = 3.141592654`, not with `π`.  `SignedDeltaPhi(3, -3)` is `6 - 2·PI`, which
differs from `6 - 2π`; and the raw difference `3.1415926539` exceeds `π` yet is
returned unwrapped. -/
theorem SignedDeltaPhi_wrap_counterexample :
    SignedDeltaPhi (3 : ℝ) (-3) ≠ 6 - 2 * Real.pi ∧
    ((3.1415926535 : ℝ) - (-0.0000000004) > Real.pi ∧
      SignedDeltaPhi (3.1415926535 : ℝ) (-0.0000000004)
        ≠ (3.1415926535 : ℝ) - (-0.0000000004) - 2 * Real.pi) := by
  have hlt := pi_lt_PI
  have hlt20 := Real.pi_lt_d20
  have hpos := Real.pi_pos
  have hPI : (PI : ℝ) = 3.141592654 := rfl
  refine ⟨?_, ?_, ?_⟩
  · have h1 : ¬ ((3 : ℝ) - (-3) < -PI) := by rw [hPI]; norm_num
    have h2 : (3 : ℝ) - (-3) > PI := by rw [hPI]; norm_num
    simp only [SignedDeltaPhi, h1, h2, if_true, if_false]
    intro h
    linarith
  · norm_num at hlt20 ⊢
    linarith
  · have h1 : ¬ ((3.1415926535 : ℝ) - (-0.0000000004) < -PI) := by rw [hPI]; norm_num
    have h2 : ¬ ((3.1415926535 : ℝ) - (-0.0000000004) > PI) := by rw [hPI]; norm_num
    simp only [SignedDeltaPhi, h1, h2, if_false]
    intro h
    linarith

/-- C10 (amended): with `PI = 3.141592654`, the code's constant, in place of
`π`: the result is `d + 2·PI` when `d < -PI`, `d - 2·PI` when `d > PI`, and `d`
otherwise, where `d = phi1 - phi2`; in particular
`SignedDeltaPhi(3, -3) = 6 - 2·PI`, which is within `1e-9` of `6 - 2π` and within
`1e-3` of `-0.283`. -/
theorem SignedDeltaPhi_wrap (phi1 phi2 : ℝ) :
    (phi1 - phi2 < -PI → SignedDeltaPhi phi1 phi2 = phi1 - phi2 + 2 * PI) ∧
    (phi1 - phi2 > PI → SignedDeltaPhi phi1 phi2 = phi1 - phi2 - 2 * PI) ∧
    (-PI ≤ phi1 - phi2 → phi1 - phi2 ≤ PI → SignedDeltaPhi phi1 phi2 = phi1 - phi2) ∧
    SignedDeltaPhi (3 : ℝ) (-3) = 6 - 2 * PI ∧
    |SignedDeltaPhi (3 : ℝ) (-3) - (6 - 2 * Real.pi)| < 0.000000001 ∧
    |SignedDeltaPhi (3 : ℝ) (-3) - (-0.283)| < 0.001 := by
  have hP : (0 : ℝ) < PI := PI_pos
  have hPI : (PI : ℝ) = 3.141592654 := rfl
  have h33 : SignedDeltaPhi (3 : ℝ) (-3) = 6 - 2 * PI := by
    have h1 : ¬ ((3 : ℝ) - (-3) < -PI) := by rw [hPI]; norm_num
    have h2 : (3 : ℝ) - (-3) > PI := by rw [hPI]; norm_num
    simp only [SignedDeltaPhi, h1, h2, if_true, if_false]
    ring
  refine ⟨fun h => ?_, fun h => ?_, fun hl hu => ?_, h33, ?_, ?_⟩
  · simp only [SignedDeltaPhi, h, if_true]; ring
  · have h1 : ¬ (phi1 - phi2 < -PI) := by intro c; linarith
    simp only [SignedDeltaPhi, h1, h, if_true, if_false]; ring
  · have h1 : ¬ (phi1 - phi2 < -PI) := not_lt.mpr hl
    have h2 : ¬ (phi1 - phi2 > PI) := not_lt.mpr hu
    simp only [SignedDeltaPhi, h1, h2, if_false]
  · have ha := pi_lt_PI
    have hb := PI_sub_pi_lt
    rw [h33, abs_lt]
    norm_num at hb ⊢
    constructor <;> linarith
  · rw [h33, hPI, abs_lt]
    norm_num

/-- C10 (amended), instances on each of the three branches. -/
theorem SignedDeltaPhi_wrap_witness :
    (((-3 : ℝ) - 3 < -PI) ∧ SignedDeltaPhi (-3 : ℝ) 3 = -3 - 3 + 2 * PI) ∧
    (((3 : ℝ) - (-3) > PI) ∧ SignedDeltaPhi (3 : ℝ) (-3) = 3 - (-3) - 2 * PI) ∧
    ((-PI ≤ (1 : ℝ) - 2 ∧ (1 : ℝ) - 2 ≤ PI) ∧ SignedDeltaPhi (1 : ℝ) 2 = 1 - 2) :=
  have hPI : (PI : ℝ) = 3.141592654 := rfl
  have a1 : (-3 : ℝ) - 3 < -PI := by rw [hPI]; norm_num
  have a2 : (3 : ℝ) - (-3) > PI := by rw [hPI]; norm_num
  have a3 : -PI ≤ (1 : ℝ) - 2 := by rw [hPI]; norm_num
  have a4 : (1 : ℝ) - 2 ≤ PI := by rw [hPI]; norm_num
  ⟨⟨a1, (SignedDeltaPhi_wrap (-3) 3).1 a1⟩,
    ⟨a2, (SignedDeltaPhi_wrap 3 (-3)).2.1 a2⟩,
    ⟨⟨a3, a4⟩, (SignedDeltaPhi_wrap 1 2).2.2.1 a3 a4⟩⟩

/-- C11: `MT` is `Mxx` with pseudorapidity and mass fixed at 0 for both
particles. -/
theorem MT_eq_Mxx (pt1 phi1 pt2 phi2 : ℝ) :
    MT pt1 phi1 pt2 phi2 = Mxx pt1 0 phi1 0 pt2 0 phi2 0 := by
  unfold MT Mxx
  rfl

/-- C12: `DeltaR2(eta, phi, eta, phi) = 0` for every `eta` and `phi`, in exact
arithmetic and under every narrowing to `float` that maps zero to zero. -/
theorem DeltaR2_same {K : Type} [LinearOrderedField K] (eta phi : K) :
    DeltaR2 id eta phi eta phi = 0 ∧
    ∀ toFloat : K → K, toFloat 0 = 0 → DeltaR2 toFloat eta phi eta phi = 0 :=
  ⟨DeltaR2_same_of_zero id rfl eta phi, fun toFloat h0 => DeltaR2_same_of_zero toFloat h0 eta phi⟩

/-- C12, instance at `eta = 5/2`, `phi = -3` over the rationals, with a
narrowing that halves its argument. -/
theorem DeltaR2_same_witness :
    ((fun q : ℚ => q / 2) 0 = 0) ∧ DeltaR2 (fun q : ℚ => q / 2) (5 / 2) (-3) (5 / 2) (-3) = 0 :=
  ⟨by norm_num, (DeltaR2_same (5 / 2 : ℚ) (-3)).2 (fun q => q / 2) (by norm_num)⟩

/-- C13: `SignedDeltaPhi(phi, phi) = 0` for every `phi`. -/
theorem SignedDeltaPhi_self {K : Type} [LinearOrderedField K] (phi : K) :
    SignedDeltaPhi phi phi = 0 :=
  SignedDeltaPhi_same phi

/-- C14: `ExpErf(0, 0, 1, 0) = 0.5`, and `ExpErf(a, a, b, 0) = 0.5` for every
`a` and every `b ≠ 0`. -/
theorem ExpErf_turn_on (a b : ℝ) (hb : b ≠ 0) :
    ExpErf 0 0 1 0 = 0.5 ∧ ExpErf a a b 0 = 0.5 := by
  have _ := hb
  constructor
  · simp only [ExpErf, sub_self, zero_div, TMath.Erf_zero, mul_zero, Real.exp_zero]
    norm_num
  · simp only [ExpErf, sub_self, zero_div, TMath.Erf_zero, zero_mul, Real.exp_zero]
    norm_num

/-- C14, instance at `a = 7`, `b = -2`. -/
theorem ExpErf_turn_on_witness :
    (-2 : ℝ) ≠ 0 ∧ (ExpErf 0 0 1 0 = 0.5 ∧ ExpErf 7 7 (-2) 0 = 0.5) :=
  ⟨by norm_num, ExpErf_turn_on 7 (-2) (by norm_num)⟩

/-- C15: `dsign(x) = sign(x)` for every real `x`. -/
theorem dsign_eq_sign (x : ℝ) : dsign x = sign x := by
  unfold dsign
  rfl

/-- C16: called with one argument, `clean` uses the default `-1`:
`clean(x) = clean(x, -1)` for every `x`, and `clean` of NaN, `+Infinity` and
`-Infinity` is `-1`. -/
theorem clean_default {K : Type} [Neg K] [One K] (x : Dbl K) :
    clean x = clean x (Dbl.finite (-1)) ∧
    clean (Dbl.nan : Dbl K) = Dbl.finite (-1) ∧
    clean (Dbl.posInf : Dbl K) = Dbl.finite (-1) ∧
    clean (Dbl.negInf : Dbl K) = Dbl.finite (-1) :=
  ⟨rfl, rfl, rfl, rfl⟩

/-- C17: with an inverted range, `low > high`, `bound(val, low, high)` is
`max(low, min(high, val))` and equals `low` for every `val`. -/
theorem bound_inverted {K : Type} [LinearOrderedField K] (val low high : K) (h : low > high) :
    bound val low high = max low (min high val) ∧ bound val low high = low := by
  have e : bound val low high = max low (min high val) := by
    unfold bound
    rw [TMath.Max_eq_max, TMath.Min_eq_min]
  refine ⟨e, ?_⟩
  rw [e]
  exact max_eq_left (((min_le_left high val).trans_lt h).le)

/-- C17, instances at `low = 3`, `high = 0` with `val` above, inside and below
over the rationals. -/
theorem bound_inverted_witness :
    (3 : ℚ) > 0 ∧ bound (7 : ℚ) 3 0 = 3 ∧ bound (1 : ℚ) 3 0 = 3 ∧ bound (-4 : ℚ) 3 0 = 3 :=
  ⟨by norm_num, (bound_inverted 7 3 0 (by norm_num)).2, (bound_inverted 1 3 0 (by norm_num)).2,
    (bound_inverted (-4) 3 0 (by norm_num)).2⟩

/-- C18: `SignedDeltaPhi` wraps at most once.  At `phi1 = 10`, `phi2 = 0` the
difference exceeds one period, the result is `10 - 2·PI ≈ 3.717` and lies
outside `[-π, π]`; the result is always the raw difference shifted by `0`,
`+2·PI` or `-2·PI`; and whenever `|phi1 - phi2| ≤ 3·PI` the result lies in
`[-PI, PI]`. -/
theorem SignedDeltaPhi_single_wrap :
    (∃ phi1 phi2 : ℝ, |phi1 - phi2| > 2 * Real.pi ∧
      ¬ (-Real.pi ≤ SignedDeltaPhi phi1 phi2 ∧ SignedDeltaPhi phi1 phi2 ≤ Real.pi)) ∧
    (|(10 : ℝ) - 0| > 2 * PI ∧ SignedDeltaPhi (10 : ℝ) 0 = 10 - 2 * PI ∧
      |SignedDeltaPhi (10 : ℝ) 0 - 3.717| < 0.001 ∧ SignedDeltaPhi (10 : ℝ) 0 > Real.pi) ∧
    (∀ phi1 phi2 : ℝ, SignedDeltaPhi phi1 phi2 = phi1 - phi2 ∨
      SignedDeltaPhi phi1 phi2 = phi1 - phi2 + 2 * PI ∨
      SignedDeltaPhi phi1 phi2 = phi1 - phi2 - 2 * PI) ∧
    (∀ phi1 phi2 : ℝ, |phi1 - phi2| ≤ 3 * PI →
      -PI ≤ SignedDeltaPhi phi1 phi2 ∧ SignedDeltaPhi phi1 phi2 ≤ PI) := by
  have hPI : (PI : ℝ) = 3.141592654 := rfl
  have hlt := pi_lt_PI
  have hpos := Real.pi_pos
  have h10 : SignedDeltaPhi (10 : ℝ) 0 = 10 - 2 * PI := by
    have h1 : ¬ ((10 : ℝ) - 0 < -PI) := by rw [hPI]; norm_num
    have h2 : (10 : ℝ) - 0 > PI := by rw [hPI]; norm_num
    simp only [SignedDeltaPhi, h1, h2, if_true, if_false]
    ring
  have hgt : SignedDeltaPhi (10 : ℝ) 0 > Real.pi := by
    rw [h10]
    have : (10 : ℝ) - 2 * PI > PI := by rw [hPI]; norm_num
    linarith
  have habs : |(10 : ℝ) - 0| > 2 * PI := by
    rw [sub_zero, abs_of_pos (by norm_num : (0 : ℝ) < 10), hPI]; norm_num
  refine ⟨⟨10, 0, by linarith, fun h => by linarith [h.2]⟩, ⟨habs, h10, ?_, hgt⟩, ?_, ?_⟩
  · rw [h10, hPI, abs_lt]
    norm_num
  · intro phi1 phi2
    rcases SignedDeltaPhi_cases phi1 phi2 with ⟨_, e⟩ | ⟨_, _, e⟩ | ⟨_, _, e⟩
    · right; left; rw [e]; ring
    · right; right; rw [e]; ring
    · left; exact e
  · intro phi1 phi2 h
    obtain ⟨hl, hu⟩ := abs_le.mp h
    rcases SignedDeltaPhi_cases phi1 phi2 with ⟨h1, e⟩ | ⟨_, h2, e⟩ | ⟨h1, h2, e⟩
    · rw [e]; constructor <;> linarith
    · rw [e]; constructor <;> linarith
    · rw [e]; exact ⟨not_lt.mp h1, not_lt.mp h2⟩

/-- C18, instance of the bounded part at `phi1 = 9`, `phi2 = 0`, whose
difference lies between two and three times `PI`. -/
theorem SignedDeltaPhi_single_wrap_witness :
    |(9 : ℝ) - 0| ≤ 3 * PI ∧
      (-PI ≤ SignedDeltaPhi (9 : ℝ) 0 ∧ SignedDeltaPhi (9 : ℝ) 0 ≤ PI) :=
  have h : |(9 : ℝ) - 0| ≤ 3 * PI := by
    have hPI : (PI : ℝ) = 3.141592654 := rfl
    rw [sub_zero, abs_of_pos (by norm_num : (0 : ℝ) < 9), hPI]; norm_num
  ⟨h, SignedDeltaPhi_single_wrap.2.2.2 9 0 h⟩

/-- C19: `SignedDeltaPhi(phi2, phi1) = -SignedDeltaPhi(phi1, phi2)` for every
`phi1`, `phi2` in exact arithmetic; at the boundary the raw differences `PI`
and `-PI` are both returned unwrapped. -/
theorem SignedDeltaPhi_antisymmetric {K : Type} [LinearOrderedField K] (phi1 phi2 : K) :
    SignedDeltaPhi phi2 phi1 = -SignedDeltaPhi phi1 phi2 ∧
    SignedDeltaPhi (PI : K) 0 = PI ∧ SignedDeltaPhi (0 : K) PI = -PI := by
  have hP : (0 : K) < PI := PI_pos
  refine ⟨SignedDeltaPhi_antisymm phi1 phi2, ?_, ?_⟩
  · have h1 : ¬ ((PI : K) < -PI) := by intro c; linarith
    have h2 : ¬ ((PI : K) > PI) := lt_irrefl _
    simp only [SignedDeltaPhi, sub_zero, h1, h2, if_false]
  · have h1 : ¬ (-(PI : K) < -PI) := lt_irrefl _
    have h2 : ¬ (-(PI : K) > PI) := by intro c; linarith
    simp only [SignedDeltaPhi, zero_sub, h1, h2, if_false]

/-- C20: in exact real arithmetic `MT ≥ 0` and
`MT² = 2·|pt1|·|pt2|·(1 − cos(phi1 − phi2))`; hence `MT = 0` whenever
`phi1 = phi2` or either `pt` is 0. -/
theorem MT_closed_form (pt1 phi1 pt2 phi2 : ℝ) :
    0 ≤ MT pt1 phi1 pt2 phi2 ∧
    MT pt1 phi1 pt2 phi2 ^ 2 = 2 * |pt1| * |pt2| * (1 - Real.cos (phi1 - phi2)) ∧
    (phi1 = phi2 ∨ pt1 = 0 ∨ pt2 = 0 → MT pt1 phi1 pt2 phi2 = 0) := by
  rw [MT_eq_sqrt]
  refine ⟨Real.sqrt_nonneg _, Real.sq_sqrt (MT_Mag2_nonneg pt1 phi1 pt2 phi2), ?_⟩
  intro h
  rcases h with h | h | h
  · rw [h, sub_self, Real.cos_zero, sub_self, mul_zero, Real.sqrt_zero]
  · rw [h, abs_zero, mul_zero, zero_mul, zero_mul, Real.sqrt_zero]
  · rw [h, abs_zero, mul_zero, zero_mul, Real.sqrt_zero]

/-- C20, instances with equal angles, with `pt1 = 0` and with `pt2 = 0`. -/
theorem MT_closed_form_witness :
    ((2 : ℝ) = 2 ∧ MT 3 2 5 2 = 0) ∧ ((0 : ℝ) = 0 ∧ MT 0 1 5 2 = 0) ∧
      ((0 : ℝ) = 0 ∧ MT 3 1 0 2 = 0) :=
  ⟨⟨rfl, (MT_closed_form 3 2 5 2).2.2 (Or.inl rfl)⟩,
    ⟨rfl, (MT_closed_form 0 1 5 2).2.2 (Or.inr (Or.inl rfl))⟩,
    ⟨rfl, (MT_closed_form 3 1 0 2).2.2 (Or.inr (Or.inr rfl))⟩⟩

end PandaCore
